import Mathlib

/- Shallow embedding of `src/varint.rs` (little-endian LEB128 variable-length
integers): `varint_length`, the `read_le_varint` decoding loop, the typed
wrapper through `num::from_u64`, and `write_le_varint`, together with
theorems checking the specification's claims.  `u64` arithmetic is `Nat`
arithmetic reduced `% 2 ^ 64` where the source operates on `u64`. -/

namespace Varint

instance {ε α : Type} [DecidableEq ε] [DecidableEq α] : DecidableEq (Except ε α) := fun a b =>
  match a, b with
  | Except.ok x, Except.ok y =>
    if h : x = y then isTrue (by rw [h]) else isFalse (by intro hc; cases hc; exact h rfl)
  | Except.ok _, Except.error _ => isFalse (by intro hc; cases hc)
  | Except.error _, Except.ok _ => isFalse (by intro hc; cases hc)
  | Except.error x, Except.error y =>
    if h : x = y then isTrue (by rw [h]) else isFalse (by intro hc; cases hc; exact h rfl)

/-- Kinds of `std::io::IoError` that occur in the embedding. -/
inductive IoErrorKind where
  | InvalidInput
  | EndOfFile
  | OtherIoError
deriving DecidableEq

/-- `std::io::IoError`: kind, static description, optional detail. -/
structure IoError where
  kind : IoErrorKind
  desc : String
  detail : Option String
deriving DecidableEq

/-- `static OWERFLOW_ERROR: IoError = IoError { kind: InvalidInput, desc: "owerflow", detail: None }`. -/
def OWERFLOW_ERROR : IoError := ⟨IoErrorKind.InvalidInput, "owerflow", none⟩

/-- The failure a `Reader` yields when `read_byte` is called past the end of
its data (`BufReader` end-of-file). -/
def EOF_ERROR : IoError := ⟨IoErrorKind.EndOfFile, "end of file", none⟩

/-- A source of bytes: the list of successive `read_byte` outcomes of a
`Reader`, each a byte (`Except.ok`) or a failure (`Except.error`).  An
exhausted list fails with `EOF_ERROR`. -/
abbrev Source := List (Except IoError Nat)

/-- The `for i in count(0u, 1)` loop of `fn read_le_varint<R: Reader>`:
accumulator `x`, current `shift`, byte index `i`.  Returns the result
together with the number of bytes consumed from the source. -/
def read_le_varint_loop : Source → Nat → Nat → Nat → (Except IoError Nat) × Nat
  | [], _, _, _ => (Except.error EOF_ERROR, 0)
  | Except.error e :: _, _, _, _ => (Except.error e, 0)
  | Except.ok b :: rest, x, shift, i =>
    if b < 128 then
      if (i = 9 ∧ 1 < b) ∨ 10 ≤ i then
        (Except.error OWERFLOW_ERROR, 1)
      else
        (Except.ok ((x ||| b <<< shift) % 2 ^ 64), 1)
    else
      let r := read_le_varint_loop rest ((x ||| (b &&& 127) <<< shift) % 2 ^ 64) (shift + 7) (i + 1)
      (r.1, r.2 + 1)

/-- `fn read_le_varint<R: Reader>(reader: &mut R) -> IoResult<u64>`, paired
with the number of bytes it consumed. -/
def read_le_varint (src : Source) : (Except IoError Nat) × Nat :=
  read_le_varint_loop src 0 0 0

/-- `num::from_u64::<T>` for an unsigned target type of bit width `W`:
succeeds exactly when the value fits. -/
def from_u64 (W : Nat) (x : Nat) : Option Nat :=
  if x < 2 ^ W then some x else none

/-- The closure passed to `.and_then` in `VarintReader::read_le_varint`:
narrow a decoded `u64` with `num::from_u64`, turning a failed narrowing into
`OWERFLOW_ERROR`; a decode failure passes through unchanged. -/
def narrow_u64 (W : Nat) (r : Except IoError Nat) : Except IoError Nat :=
  match r with
  | Except.ok x =>
    match from_u64 W x with
    | some y => Except.ok y
    | none => Except.error OWERFLOW_ERROR
  | Except.error e => Except.error e

/-- `VarintReader::read_le_varint::<V>` for an unsigned target of bit width
`W`: decode a `u64`, then narrow (`read_le_varint(self).and_then(...)`). -/
def read_le_varint_typed (W : Nat) (src : Source) : (Except IoError Nat) × Nat :=
  let r := read_le_varint src
  (narrow_u64 W r.1, r.2)

/-- What a `Writer` answers to each successive `write_u8`: `none` is success,
`some e` is failure with error `e`.  A plan that has run out accepts every
further write; the always-accepting sink is `[]`. -/
abbrev SinkPlan := List (Option IoError)

/-- One `write_u8` call against a plan. -/
def write_u8 : SinkPlan → Option IoError × SinkPlan
  | [] => (none, [])
  | r :: rest => (r, rest)

/-- `fn write_le_varint<W: Writer>(writer: &mut W, mut x: u64) -> IoResult<uint>`:
the count result, and the bytes actually written to the sink (also on
failure: bytes already written stay written). -/
def write_le_varint (plan : SinkPlan) (x : Nat) : (Except IoError Nat) × List Nat :=
  if h : x < 128 then
    match write_u8 plan with
    | (some e, _) => (Except.error e, [])
    | (none, _) => (Except.ok 1, [x % 256])
  else
    match write_u8 plan with
    | (some e, _) => (Except.error e, [])
    | (none, plan1) =>
      let r := write_le_varint plan1 (x >>> 7)
      (match r.1 with
       | Except.ok n => Except.ok (n + 1)
       | Except.error e => Except.error e,
       (x % 256 ||| 128) :: r.2)
termination_by x
decreasing_by
  rw [Nat.shiftRight_eq_div_pow]
  exact Nat.div_lt_self (by omega) (by norm_num)

/-- `fn varint_length(mut x: u64) -> uint`: right-shift by 7 until the value
is below 128, counting shifts; the answer is shifts + 1. -/
def varint_length (x : Nat) : Nat :=
  if h : x < 128 then 1 else varint_length (x >>> 7) + 1
termination_by x
decreasing_by
  rw [Nat.shiftRight_eq_div_pow]
  exact Nat.div_lt_self (by omega) (by norm_num)

/-- The byte sequence `write_le_varint` emits for `x`: low 7 bits first, the
continuation bit set on every byte except the last. -/
def encBytes (x : Nat) : List Nat :=
  if h : x < 128 then [x % 256] else (x % 256 ||| 128) :: encBytes (x >>> 7)
termination_by x
decreasing_by
  rw [Nat.shiftRight_eq_div_pow]
  exact Nat.div_lt_self (by omega) (by norm_num)

/-- The value denoted by continuation bytes `cs` followed by a terminal byte
`b` (little-endian, 7 payload bits per continuation byte). -/
def varintVal : List Nat → Nat → Nat
  | [], b => b
  | c :: cs, b => (c &&& 127) + 128 * varintVal cs b

/-- `ToPrimitive::to_u64` on an unsigned value: succeeds exactly when the
value fits in 64 bits. -/
def to_u64 (x : Nat) : Option Nat :=
  if x < 2 ^ 64 then some x else none

/-- `VarintWriter::write_le_varint::<V>`: widen with `to_u64`, `unwrap`, then
write.  `Option.getD 0` stands for `unwrap`; the safety theorem shows the
`none` case cannot occur for a representable value. -/
def write_le_varint_typed (plan : SinkPlan) (x : Nat) : (Except IoError Nat) × List Nat :=
  write_le_varint plan ((to_u64 x).getD 0)

/-- Outcome of running the decode loop under an explicit iteration budget:
`done` is a normal exit of the `for` loop, `unreachableHit` is falling
through to the `unreachable!()` that follows it. -/
inductive LoopResult where
  | done (r : Except IoError Nat) (consumed : Nat)
  | unreachableHit
deriving DecidableEq

/-- The loop of `read_le_varint` again, with an explicit iteration budget:
exhausting the budget models reaching the `unreachable!()` statement. -/
def read_le_varint_count : Nat → Source → Nat → Nat → Nat → LoopResult
  | 0, _, _, _, _ => LoopResult.unreachableHit
  | fuel + 1, src, x, shift, i =>
    match src with
    | [] => LoopResult.done (Except.error EOF_ERROR) 0
    | Except.error e :: _ => LoopResult.done (Except.error e) 0
    | Except.ok b :: rest =>
      if b < 128 then
        if (i = 9 ∧ 1 < b) ∨ 10 ≤ i then
          LoopResult.done (Except.error OWERFLOW_ERROR) 1
        else
          LoopResult.done (Except.ok ((x ||| b <<< shift) % 2 ^ 64)) 1
      else
        match read_le_varint_count fuel rest ((x ||| (b &&& 127) <<< shift) % 2 ^ 64) (shift + 7) (i + 1) with
        | LoopResult.done r n => LoopResult.done r (n + 1)
        | LoopResult.unreachableHit => LoopResult.unreachableHit

/-- Disjoint bit ranges: `or`-ing a value below `2 ^ n` with a shifted-in
high part is addition. -/
lemma lor_shiftLeft_eq_add {a : Nat} (n b : Nat) (ha : a < 2 ^ n) :
    a ||| b <<< n = a + b * 2 ^ n := by
  have h := Nat.mul_add_lt_is_or ha b
  rw [Nat.shiftLeft_eq, Nat.or_comm]
  calc b * 2 ^ n ||| a = 2 ^ n * b ||| a := by rw [Nat.mul_comm]
    _ = 2 ^ n * b + a := h.symm
    _ = a + b * 2 ^ n := by ring

set_option maxRecDepth 4000 in
/-- Facts about a continuation byte `a ||| 128` for `a < 256`. -/
lemma byte_or128_facts : ∀ a, a < 256 →
    128 ≤ (a ||| 128) ∧ (a ||| 128) < 256 ∧
    (a ||| 128) &&& 127 = a % 128 ∧ (a ||| 128) &&& 128 = 128 := by decide

set_option maxRecDepth 4000 in
/-- A byte in `[128, 256)` has the continuation bit set. -/
lemma high_byte_and_128 : ∀ c, c < 256 → 128 ≤ c → c &&& 128 = 128 := by decide

/-- A terminal byte (below 128) has the continuation bit clear. -/
lemma low_byte_and_128 : ∀ b, b < 128 → b &&& 128 = 0 := by decide

/-- Masking with `127` keeps the value below 128. -/
lemma and127_lt (c : Nat) : c &&& 127 < 128 := by
  have h : c &&& 127 ≤ 127 := Nat.and_le_right
  omega

/-- Upper bound on the value denoted by `cs ++ [b]`. -/
lemma varintVal_le (cs : List Nat) (b : Nat) :
    varintVal cs b ≤ 128 ^ cs.length * (b + 1) - 1 := by
  induction cs with
  | nil => simp [varintVal]
  | cons c cs ih =>
    have h1 : c &&& 127 < 128 := and127_lt c
    have hM : 1 ≤ 128 ^ cs.length * (b + 1) :=
      Nat.one_le_iff_ne_zero.mpr (Nat.mul_ne_zero (Nat.pos_iff_ne_zero.mp (Nat.pos_pow_of_pos _ (by norm_num))) (by omega))
    have hmul : 128 ^ cs.length * 128 * (b + 1) = 128 * (128 ^ cs.length * (b + 1)) := by ring
    simp only [varintVal, List.length_cons, pow_succ]
    omega

/-- Lower bound: the terminal byte contributes `b * 128 ^ cs.length`. -/
lemma varintVal_ge (cs : List Nat) (b : Nat) :
    b * 128 ^ cs.length ≤ varintVal cs b := by
  induction cs with
  | nil => simp [varintVal]
  | cons c cs ih =>
    have hmul : b * (128 ^ cs.length * 128) = 128 * (b * 128 ^ cs.length) := by ring
    simp only [varintVal, List.length_cons, pow_succ]
    omega

/-- Running the decode loop from byte index `i` over continuation bytes `cs`
and a terminal byte `b`, when the terminal index stays inside the ten-byte
limit: the loop succeeds with the accumulated value, consuming
`cs.length + 1` bytes and never looking at `rest`. -/
lemma read_le_varint_loop_ok (cs : List Nat) (b : Nat) (rest : Source) (x i : Nat)
    (hcs : ∀ c ∈ cs, 128 ≤ c) (hb : b < 128)
    (hlen : i + cs.length ≤ 9) (hlast : i + cs.length = 9 → b ≤ 1)
    (hx : x < 2 ^ (7 * i)) :
    read_le_varint_loop (cs.map Except.ok ++ Except.ok b :: rest) x (7 * i) i =
      (Except.ok (x + varintVal cs b * 2 ^ (7 * i)), cs.length + 1) := by
  induction cs generalizing x i with
  | nil =>
    simp only [List.map_nil, List.nil_append, read_le_varint_loop, varintVal, List.length_nil]
    rw [if_pos hb]
    have hi : i ≤ 9 := by omega
    have hneg : ¬((i = 9 ∧ 1 < b) ∨ 10 ≤ i) := by
      rintro (⟨h9, hb1⟩ | h10)
      · have := hlast (by omega)
        omega
      · omega
    rw [if_neg hneg]
    rw [lor_shiftLeft_eq_add _ _ hx]
    have hmod : x + b * 2 ^ (7 * i) < 2 ^ 64 := by
      by_cases h9 : i = 9
      · have hb1 : b ≤ 1 := hlast (by omega)
        subst h9
        have hx' : x < 2 ^ 63 := by simpa using hx
        have : b * 2 ^ 63 ≤ 2 ^ 63 := by
          calc b * 2 ^ 63 ≤ 1 * 2 ^ 63 := Nat.mul_le_mul_right _ hb1
            _ = 2 ^ 63 := by ring
        have h63 : (2:Nat) ^ 63 + 2 ^ 63 = 2 ^ 64 := by norm_num
        simp only [show (7:Nat) * 9 = 63 by norm_num]
        omega
      · have hi8 : i ≤ 8 := by omega
        have hpow : (2:Nat) ^ (7 * i) ≤ 2 ^ 56 := Nat.pow_le_pow_right (by norm_num) (by omega)
        have hbb : b * 2 ^ (7 * i) ≤ 127 * 2 ^ 56 := Nat.mul_le_mul (by omega) hpow
        have hfin : (2:Nat) ^ 56 + 127 * 2 ^ 56 ≤ 2 ^ 64 := by norm_num
        omega
    rw [Nat.mod_eq_of_lt hmod]
  | cons c cs ih =>
    have hc : 128 ≤ c := hcs c (by simp)
    have hcl : c &&& 127 < 128 := and127_lt c
    have hi1 : i + 1 + cs.length ≤ 9 := by
      simp only [List.length_cons] at hlen
      omega
    have hpow78 : (2:Nat) ^ (7 * i) * 128 = 2 ^ (7 * (i + 1)) := by
      rw [show 7 * (i + 1) = 7 * i + 7 by ring, pow_add]
      norm_num
    have hx' : x + (c &&& 127) * 2 ^ (7 * i) < 2 ^ (7 * (i + 1)) := by
      rw [← hpow78]
      have : (c &&& 127) * 2 ^ (7 * i) ≤ 127 * 2 ^ (7 * i) := Nat.mul_le_mul_right _ (by omega)
      nlinarith
    have hupd : (x ||| (c &&& 127) <<< (7 * i)) % 2 ^ 64 = x + (c &&& 127) * 2 ^ (7 * i) := by
      rw [lor_shiftLeft_eq_add _ _ hx]
      apply Nat.mod_eq_of_lt
      have h63 : 7 * (i + 1) ≤ 63 := by omega
      calc x + (c &&& 127) * 2 ^ (7 * i) < 2 ^ (7 * (i + 1)) := hx'
        _ ≤ 2 ^ 63 := Nat.pow_le_pow_right (by norm_num) h63
        _ < 2 ^ 64 := by norm_num
    have hcs' : ∀ d ∈ cs, 128 ≤ d := fun d hd => hcs d (List.mem_cons_of_mem c hd)
    have hlast' : i + 1 + cs.length = 9 → b ≤ 1 := by
      intro h
      apply hlast
      simp only [List.length_cons]
      omega
    simp only [List.map_cons, List.cons_append, read_le_varint_loop, List.append_eq]
    rw [if_neg (by omega : ¬ c < 128)]
    simp only [hupd, show 7 * i + 7 = 7 * (i + 1) by ring]
    rw [ih (x + (c &&& 127) * 2 ^ (7 * i)) (i + 1) hcs' hi1 hlast' hx']
    simp only [varintVal, List.length_cons]
    have hval : x + (c &&& 127) * 2 ^ (7 * i) + varintVal cs b * 2 ^ (7 * (i + 1)) =
        x + ((c &&& 127) + 128 * varintVal cs b) * 2 ^ (7 * i) := by
      rw [← hpow78]
      ring
    rw [hval]

/-- Reaching a terminal byte at an index past the ten-byte limit: the loop
fails with `OWERFLOW_ERROR` after consuming `cs.length + 1` bytes. -/
lemma read_le_varint_loop_overflow (cs : List Nat) (b : Nat) (rest : Source) (x shift i : Nat)
    (hcs : ∀ c ∈ cs, 128 ≤ c) (hb : b < 128)
    (hover : (i + cs.length = 9 ∧ 1 < b) ∨ 10 ≤ i + cs.length) :
    read_le_varint_loop (cs.map Except.ok ++ Except.ok b :: rest) x shift i =
      (Except.error OWERFLOW_ERROR, cs.length + 1) := by
  induction cs generalizing x shift i with
  | nil =>
    simp only [List.map_nil, List.nil_append, read_le_varint_loop, List.length_nil]
    rw [if_pos hb, if_pos (by simpa using hover)]
  | cons c cs ih =>
    have hc : 128 ≤ c := hcs c (by simp)
    have hcs' : ∀ d ∈ cs, 128 ≤ d := fun d hd => hcs d (List.mem_cons_of_mem c hd)
    have hover' : (i + 1 + cs.length = 9 ∧ 1 < b) ∨ 10 ≤ i + 1 + cs.length := by
      simp only [List.length_cons] at hover
      rcases hover with ⟨h1, h2⟩ | h1
      · exact Or.inl ⟨by omega, h2⟩
      · exact Or.inr (by omega)
    simp only [List.map_cons, List.cons_append, read_le_varint_loop, List.append_eq]
    rw [if_neg (by omega : ¬ c < 128)]
    rw [ih _ _ _ hcs' hover']
    simp [List.length_cons]

/-- A failing `read_byte` after any run of continuation bytes: the loop
propagates the failure unchanged, having consumed `cs.length` bytes. -/
lemma read_le_varint_loop_err (cs : List Nat) (e : IoError) (rest : Source) (x shift i : Nat)
    (hcs : ∀ c ∈ cs, 128 ≤ c) :
    read_le_varint_loop (cs.map Except.ok ++ Except.error e :: rest) x shift i =
      (Except.error e, cs.length) := by
  induction cs generalizing x shift i with
  | nil => simp [read_le_varint_loop]
  | cons c cs ih =>
    have hc : 128 ≤ c := hcs c (by simp)
    have hcs' : ∀ d ∈ cs, 128 ≤ d := fun d hd => hcs d (List.mem_cons_of_mem c hd)
    simp only [List.map_cons, List.cons_append, read_le_varint_loop, List.append_eq]
    rw [if_neg (by omega : ¬ c < 128)]
    rw [ih _ _ _ hcs']
    simp [List.length_cons]

/-- The loop never consumes more bytes than the source holds. -/
lemma read_le_varint_loop_consumed_le (src : Source) (x shift i : Nat) :
    (read_le_varint_loop src x shift i).2 ≤ src.length := by
  induction src generalizing x shift i with
  | nil => simp [read_le_varint_loop]
  | cons a rest ih =>
    cases a with
    | error e => simp [read_le_varint_loop]
    | ok b =>
      simp only [read_le_varint_loop, List.length_cons]
      split
      · split
        · simp
        · simp
      · have := ih ((x ||| (b &&& 127) <<< shift) % 2 ^ 64) (shift + 7) (i + 1)
        simp only []
        omega

/-- A successful decode starting at byte index `i` consumes between 1 and
`10 - i` bytes. -/
lemma read_le_varint_loop_ok_consumed (src : Source) (x shift i : Nat) (v n : Nat)
    (h : read_le_varint_loop src x shift i = (Except.ok v, n)) :
    1 ≤ n ∧ i + n ≤ 10 := by
  induction src generalizing x shift i v n with
  | nil => simp [read_le_varint_loop] at h
  | cons a rest ih =>
    cases a with
    | error e => simp [read_le_varint_loop] at h
    | ok b =>
      simp only [read_le_varint_loop] at h
      by_cases hb : b < 128
      · rw [if_pos hb] at h
        by_cases hover : (i = 9 ∧ 1 < b) ∨ 10 ≤ i
        · rw [if_pos hover] at h
          simp at h
        · rw [if_neg hover] at h
          rw [Prod.mk.injEq] at h
          omega
      · rw [if_neg hb] at h
        rw [Prod.mk.injEq] at h
        obtain ⟨h1, h2⟩ := h
        have := ih ((x ||| (b &&& 127) <<< shift) % 2 ^ 64) (shift + 7) (i + 1) v
          ((read_le_varint_loop rest ((x ||| (b &&& 127) <<< shift) % 2 ^ 64) (shift + 7) (i + 1)).2)
          (by rw [← h1])
        omega

/-- On a pure byte source, returning `OWERFLOW_ERROR` means at least one byte
was read. -/
lemma read_le_varint_loop_overflow_consumed (bytes : List Nat) (x shift i n : Nat)
    (h : read_le_varint_loop (bytes.map Except.ok) x shift i = (Except.error OWERFLOW_ERROR, n)) :
    1 ≤ n := by
  cases bytes with
  | nil =>
    simp only [List.map_nil, read_le_varint_loop] at h
    have := congrArg Prod.fst h
    simp [EOF_ERROR, OWERFLOW_ERROR] at this
  | cons b rest =>
    simp only [List.map_cons, read_le_varint_loop] at h
    by_cases hb : b < 128
    · rw [if_pos hb] at h
      split at h
      · rw [Prod.mk.injEq] at h
        omega
      · simp at h
    · rw [if_neg hb] at h
      rw [Prod.mk.injEq] at h
      omega

/-- One loop iteration of `varint_length` for a value with high bits. -/
lemma varint_length_step (x : Nat) (h : 128 ≤ x) : varint_length x = varint_length (x >>> 7) + 1 := by
  conv_lhs => unfold varint_length
  rw [dif_neg (by omega)]

/-- `varint_length` on a value below 128. -/
lemma varint_length_base (x : Nat) (h : x < 128) : varint_length x = 1 := by
  unfold varint_length
  rw [dif_pos h]

/-- Shifting right by 7 strictly shrinks a value that is at least 128. -/
lemma shiftRight7_lt (x : Nat) (h : ¬ x < 128) : x >>> 7 < x := by
  rw [Nat.shiftRight_eq_div_pow]
  exact Nat.div_lt_self (by omega) (by norm_num)

/-- The encoding splits into continuation bytes and one terminal byte, whose
payloads denote the encoded value, and whose count is `varint_length`. -/
lemma encBytes_structure (x : Nat) :
    ∃ cs b, encBytes x = cs ++ [b] ∧ (∀ c ∈ cs, 128 ≤ c ∧ c < 256) ∧ b < 128 ∧
      varintVal cs b = x ∧ cs.length + 1 = varint_length x := by
  induction x using Nat.strong_induction_on with
  | _ x ih =>
    by_cases h : x < 128
    · refine ⟨[], x % 256, ?_, by simp, by omega, ?_, ?_⟩
      · unfold encBytes
        rw [dif_pos h]
        simp
      · simp only [varintVal]
        omega
      · unfold varint_length
        rw [dif_pos h]
        simp
    · obtain ⟨cs, b, he, hcs, hb, hv, hl⟩ := ih (x >>> 7) (shiftRight7_lt x h)
      have hbyte := byte_or128_facts (x % 256) (by omega)
      refine ⟨(x % 256 ||| 128) :: cs, b, ?_, ?_, hb, ?_, ?_⟩
      · unfold encBytes
        rw [dif_neg h, he]
        simp
      · intro c hc
        rcases List.mem_cons.mp hc with rfl | hc'
        · exact ⟨hbyte.1, hbyte.2.1⟩
        · exact hcs c hc'
      · simp only [varintVal, hbyte.2.2.1, hv]
        rw [Nat.shiftRight_eq_div_pow]
        have hmm : x % 256 % 128 = x % 128 := Nat.mod_mod_of_dvd x (by norm_num)
        rw [hmm]
        omega
      · unfold varint_length
        rw [dif_neg h]
        simp only [List.length_cons]
        omega

/-- On the always-accepting sink, `write_le_varint` succeeds and writes
exactly `encBytes x`. -/
lemma write_le_varint_accepting (x : Nat) :
    write_le_varint [] x = (Except.ok (encBytes x).length, encBytes x) := by
  induction x using Nat.strong_induction_on with
  | _ x ih =>
    by_cases h : x < 128
    · unfold write_le_varint encBytes
      rw [dif_pos h, dif_pos h]
      simp [write_u8]
    · unfold write_le_varint encBytes
      rw [dif_neg h, dif_neg h]
      simp only [write_u8, ih (x >>> 7) (shiftRight7_lt x h), List.length_cons]

/-- `varint_length` is at least one. -/
lemma varint_length_pos (x : Nat) : 1 ≤ varint_length x := by
  unfold varint_length
  split <;> omega

/-- Values below `2 ^ (7 k) * 128` need at most `k + 1` bytes. -/
lemma varint_length_le (k : Nat) : ∀ x, x < 2 ^ (7 * k) * 128 → varint_length x ≤ k + 1 := by
  induction k with
  | zero =>
    intro x hx
    unfold varint_length
    rw [dif_pos (by simpa using hx)]
  | succ k ih =>
    intro x hx
    by_cases h : x < 128
    · have := varint_length_pos x
      unfold varint_length
      rw [dif_pos h]
      omega
    · unfold varint_length
      rw [dif_neg h]
      have hlt : x >>> 7 < 2 ^ (7 * k) * 128 := by
        rw [Nat.shiftRight_eq_div_pow]
        apply Nat.div_lt_of_lt_mul
        calc x < 2 ^ (7 * (k + 1)) * 128 := hx
          _ = 2 ^ 7 * (2 ^ (7 * k) * 128) := by
            rw [show 7 * (k + 1) = 7 + 7 * k by ring, pow_add]
            ring
      have := ih (x >>> 7) hlt
      omega

/-- A 64-bit value never needs more than ten bytes. -/
lemma varint_length_le_ten (x : Nat) (hx : x < 2 ^ 64) : varint_length x ≤ 10 := by
  have h1 : x < 2 ^ (7 * 9) * 128 := by
    have : (2:Nat) ^ 64 ≤ 2 ^ (7 * 9) * 128 := by norm_num
    omega
  have := varint_length_le 9 x h1
  omega

/-- After `varint_length x - 1` shifts by 7 the value is below 128. -/
lemma varint_length_shift (x : Nat) :
    x >>> (7 * (varint_length x - 1)) < 128 := by
  induction x using Nat.strong_induction_on with
  | _ x ih =>
    by_cases h : x < 128
    · unfold varint_length
      rw [dif_pos h]
      simpa using h
    · have h1 := varint_length_pos (x >>> 7)
      unfold varint_length
      rw [dif_neg h]
      have heq : 7 * (varint_length (x >>> 7) + 1 - 1) = 7 + 7 * (varint_length (x >>> 7) - 1) := by
        omega
      rw [heq, Nat.shiftRight_add]
      exact ih (x >>> 7) (shiftRight7_lt x h)

/-- Before the last shift the value is still at least 128: `varint_length`
counts exactly the shifts needed. -/
lemma varint_length_shift_lower (x : Nat) :
    ∀ k, k < varint_length x - 1 → 128 ≤ x >>> (7 * k) := by
  induction x using Nat.strong_induction_on with
  | _ x ih =>
    intro k hk
    by_cases h : x < 128
    · unfold varint_length at hk
      rw [dif_pos h] at hk
      omega
    · cases k with
      | zero => simpa using (by omega : 128 ≤ x)
      | succ k =>
        unfold varint_length at hk
        rw [dif_neg h] at hk
        rw [show 7 * (k + 1) = 7 + 7 * k by ring, Nat.shiftRight_add]
        exact ih (x >>> 7) (shiftRight7_lt x h) k (by omega)

/-- C1.  Round-trip: for every unsigned target width `W ≤ 64` (covering
`u8`, `u16`, `u32`, `u64` and `uint`) and every `x < 2 ^ W`, decoding the
bytes produced by `write_le_varint` on an accepting sink yields `Ok x`. -/
theorem read_write_round_trip (W x : Nat) (hW : W ≤ 64) (hx : x < 2 ^ W) :
    (read_le_varint_typed W ((write_le_varint [] x).2.map Except.ok)).1 = Except.ok x := by
  have hx64 : x < 2 ^ 64 := lt_of_lt_of_le hx (Nat.pow_le_pow_right (by norm_num) hW)
  rw [write_le_varint_accepting]
  obtain ⟨cs, b, he, hcs, hb, hv, hl⟩ := encBytes_structure x
  have hten := varint_length_le_ten x hx64
  have hlast : 0 + cs.length = 9 → b ≤ 1 := by
    intro h9
    have hge := varintVal_ge cs b
    rw [hv, show cs.length = 9 by omega, show (128:Nat) ^ 9 = 2 ^ 63 by norm_num] at hge
    have h64 : (2:Nat) ^ 63 * 2 = 2 ^ 64 := by norm_num
    nlinarith
  have hloop := read_le_varint_loop_ok cs b [] 0 0 (fun c hc => (hcs c hc).1) hb
    (by omega) hlast (by norm_num)
  simp only [Nat.mul_zero, pow_zero, Nat.mul_one, Nat.zero_add, hv] at hloop
  unfold read_le_varint_typed read_le_varint
  rw [he, List.map_append]
  simp only [List.map_cons, List.map_nil]
  rw [hloop]
  simp [narrow_u64, from_u64, hx]

/-- C1, witness: `u32` round-trip of 300. -/
theorem read_write_round_trip_witness :
    (read_le_varint_typed 32 ((write_le_varint [] 300).2.map Except.ok)).1 = Except.ok 300 :=
  read_write_round_trip 32 300 (by norm_num) (by norm_num)

/-- C2, counterexample.  For the 8-bit target, a terminal byte at index 2
(input `[0x80, 0x80, 0x00]`) does not cause `OverflowError` as the claim
demands: the decoder returns `Ok 0`. -/
theorem u8_terminal_index_two_not_overflow :
    (read_le_varint_typed 8 [Except.ok 0x80, Except.ok 0x80, Except.ok 0x00]).1 = Except.ok 0 ∧
    (read_le_varint_typed 8 [Except.ok 0x80, Except.ok 0x80, Except.ok 0x00]).1 ≠
      Except.error OWERFLOW_ERROR := by decide

/-- C2, amended.  Reaching a terminal byte `b` after continuation bytes `cs`
fails with `OWERFLOW_ERROR` iff the terminal index reaches the fixed ten-byte
64-bit limit (index 9 with payload above 1, or index at least 10) — a rule
independent of the target width — or the accumulated value does not fit in
`W` bits.  The terminal index alone never triggers the per-width check. -/
theorem overflow_characterization (W : Nat) (cs : List Nat) (b : Nat)
    (hcs : ∀ c ∈ cs, 128 ≤ c) (hb : b < 128) :
    (read_le_varint_typed W ((cs ++ [b]).map Except.ok)).1 = Except.error OWERFLOW_ERROR ↔
      (cs.length = 9 ∧ 1 < b) ∨ 10 ≤ cs.length ∨ 2 ^ W ≤ varintVal cs b := by
  unfold read_le_varint_typed read_le_varint
  rw [List.map_append]
  simp only [List.map_cons, List.map_nil]
  by_cases hover : (cs.length = 9 ∧ 1 < b) ∨ 10 ≤ cs.length
  · rw [read_le_varint_loop_overflow cs b [] 0 0 0 hcs hb (by simpa using hover)]
    simp only []
    constructor
    · intro _
      rcases hover with h | h
      · exact Or.inl h
      · exact Or.inr (Or.inl h)
    · intro _
      trivial
  · have hlen : cs.length ≤ 9 := by omega
    have hlast : 0 + cs.length = 9 → b ≤ 1 := by
      intro h9
      by_contra hb1
      exact hover (Or.inl ⟨by omega, by omega⟩)
    have hloop := read_le_varint_loop_ok cs b [] 0 0 hcs hb (by omega) hlast (by norm_num)
    simp only [Nat.mul_zero, pow_zero, Nat.mul_one, Nat.zero_add] at hloop
    rw [hloop]
    simp only [from_u64]
    by_cases hfit : varintVal cs b < 2 ^ W
    · have hn : narrow_u64 W (Except.ok (varintVal cs b)) = Except.ok (varintVal cs b) := by
        simp [narrow_u64, from_u64, hfit]
      rw [hn]
      constructor
      · intro hcontra
        exact absurd hcontra (by simp)
      · intro hr
        rcases hr with h | h | h
        · exact absurd (Or.inl h) hover
        · exact absurd (Or.inr h) hover
        · exact absurd h (by omega)
    · have hn : narrow_u64 W (Except.ok (varintVal cs b)) = Except.error OWERFLOW_ERROR := by
        simp [narrow_u64, from_u64, hfit]
      rw [hn]
      constructor
      · intro _
        exact Or.inr (Or.inr (by omega))
      · intro _
        rfl

/-- C2, amended, witness: `u8` on `[0xAC, 0x02]` — both sides of the
characterization hold (value 300 exceeds 8 bits). -/
theorem overflow_characterization_witness :
    ((read_le_varint_typed 8 (([172] ++ [2]).map Except.ok)).1 = Except.error OWERFLOW_ERROR ↔
      (([172] : List Nat).length = 9 ∧ 1 < 2) ∨ 10 ≤ ([172] : List Nat).length ∨
        2 ^ 8 ≤ varintVal [172] 2) :=
  overflow_characterization 8 [172] 2 (by decide) (by decide)

/-- C3.  Decode boundary literal cases from the specification. -/
theorem decode_literal_cases :
    (read_le_varint_typed 32 [Except.ok 0x00]).1 = Except.ok 0 ∧
    (read_le_varint_typed 32 [Except.ok 0x7F]).1 = Except.ok 127 ∧
    (read_le_varint_typed 32 [Except.ok 0x80, Except.ok 0x01]).1 = Except.ok 128 ∧
    (read_le_varint_typed 32 [Except.ok 0xAC, Except.ok 0x02]).1 = Except.ok 300 ∧
    (read_le_varint_typed 8 [Except.ok 0x80, Except.ok 0x01]).1 = Except.ok 128 ∧
    (read_le_varint_typed 8 [Except.ok 0xAC, Except.ok 0x02]).1 = Except.error OWERFLOW_ERROR ∧
    (read_le_varint_typed 64 (List.replicate 9 (Except.ok 0xFF) ++ [Except.ok 0x01])).1 =
      Except.ok 0xFFFFFFFFFFFFFFFF ∧
    (read_le_varint_typed 64 (List.replicate 9 (Except.ok 0xFF) ++ [Except.ok 0x7F])).1 =
      Except.error OWERFLOW_ERROR := by decide

/-- On a failing plan, `write_le_varint` aborts at the failing write,
returns the failure verbatim, and the bytes already written remain. -/
lemma write_le_varint_fail (x : Nat) : ∀ (k : Nat) (e : IoError), k < varint_length x →
    write_le_varint (List.replicate k none ++ [some e]) x =
      (Except.error e, (encBytes x).take k) := by
  induction x using Nat.strong_induction_on with
  | _ x ih =>
    intro k e hk
    cases k with
    | zero =>
      by_cases h : x < 128
      · unfold write_le_varint
        rw [dif_pos h]
        simp [write_u8]
      · unfold write_le_varint
        rw [dif_neg h]
        simp [write_u8]
    | succ k =>
      have h : ¬ x < 128 := by
        intro hlt
        unfold varint_length at hk
        rw [dif_pos hlt] at hk
        omega
      have hk' : k < varint_length (x >>> 7) := by
        unfold varint_length at hk
        rw [dif_neg h] at hk
        omega
      unfold write_le_varint
      rw [dif_neg h]
      simp only [List.replicate_succ, List.cons_append, write_u8]
      rw [ih (x >>> 7) (shiftRight7_lt x h) k e hk']
      have henc : encBytes x = (x % 256 ||| 128) :: encBytes (x >>> 7) := by
        conv_lhs => unfold encBytes
        rw [dif_neg h]
      rw [henc, List.take_succ_cons]

/-- C4.  On the always-accepting sink, `write_le_varint` writes exactly
`varint_length x` bytes and returns `Ok` of that count; every byte before
the last has the continuation bit `0x80` set, the final byte has it clear. -/
theorem write_minimal (x : Nat) (hx : x < 2 ^ 64) :
    (write_le_varint [] x).1 = Except.ok (varint_length x) ∧
    (write_le_varint [] x).2.length = varint_length x ∧
    (write_le_varint [] x).2.dropLast.all (fun b => b &&& 128 == 128) = true ∧
    (write_le_varint [] x).2.getLastD 0 &&& 128 = 0 := by
  obtain ⟨cs, b, he, hcs, hb, hv, hl⟩ := encBytes_structure x
  rw [write_le_varint_accepting, he]
  refine ⟨?_, ?_, ?_, ?_⟩
  · show Except.ok (cs ++ [b]).length = Except.ok (varint_length x)
    rw [List.length_append, List.length_cons, List.length_nil]
    exact congrArg Except.ok (by omega)
  · show (cs ++ [b]).length = varint_length x
    rw [List.length_append, List.length_cons, List.length_nil]
    omega
  · show (cs ++ [b]).dropLast.all (fun b => b &&& 128 == 128) = true
    rw [List.dropLast_concat, List.all_eq_true]
    intro c hc
    have := hcs c hc
    simp only [beq_iff_eq]
    exact high_byte_and_128 c this.2 this.1
  · show (cs ++ [b]).getLastD 0 &&& 128 = 0
    rw [List.getLastD_concat]
    exact low_byte_and_128 b hb

/-- C4, witness at `x = 300`. -/
theorem write_minimal_witness :
    (write_le_varint [] 300).1 = Except.ok (varint_length 300) ∧
    (write_le_varint [] 300).2.length = varint_length 300 ∧
    (write_le_varint [] 300).2.dropLast.all (fun b => b &&& 128 == 128) = true ∧
    (write_le_varint [] 300).2.getLastD 0 &&& 128 = 0 :=
  write_minimal 300 (by norm_num)

/-- C5.  `varint_length x` is one plus the number of shifts by 7 needed to
bring `x` below 128 (the shifted value is below 128 after
`varint_length x - 1` shifts and not before), with the boundary values
`0 ↦ 1`, `127 ↦ 1`, `128 ↦ 2`, `2 ^ 64 - 1 ↦ 10`, and at most 10 for every
64-bit value. -/
theorem varint_length_spec :
    (∀ x : Nat, x >>> (7 * (varint_length x - 1)) < 128) ∧
    (∀ x k : Nat, k < varint_length x - 1 → 128 ≤ x >>> (7 * k)) ∧
    varint_length 0 = 1 ∧ varint_length 127 = 1 ∧ varint_length 128 = 2 ∧
    varint_length (2 ^ 64 - 1) = 10 ∧
    (∀ x : Nat, x < 2 ^ 64 → varint_length x ≤ 10) := by
  refine ⟨varint_length_shift, varint_length_shift_lower, ?_, ?_, ?_, ?_, varint_length_le_ten⟩
  · exact varint_length_base 0 (by norm_num)
  · exact varint_length_base 127 (by norm_num)
  · rw [varint_length_step 128 (by norm_num),
        show (128 : Nat) >>> 7 = 1 by decide,
        varint_length_base 1 (by norm_num)]
  · rw [varint_length_step _ (by norm_num),
        show (2 ^ 64 - 1 : Nat) >>> 7 = 2 ^ 57 - 1 by decide,
        varint_length_step _ (by norm_num),
        show (2 ^ 57 - 1 : Nat) >>> 7 = 2 ^ 50 - 1 by decide,
        varint_length_step _ (by norm_num),
        show (2 ^ 50 - 1 : Nat) >>> 7 = 2 ^ 43 - 1 by decide,
        varint_length_step _ (by norm_num),
        show (2 ^ 43 - 1 : Nat) >>> 7 = 2 ^ 36 - 1 by decide,
        varint_length_step _ (by norm_num),
        show (2 ^ 36 - 1 : Nat) >>> 7 = 2 ^ 29 - 1 by decide,
        varint_length_step _ (by norm_num),
        show (2 ^ 29 - 1 : Nat) >>> 7 = 2 ^ 22 - 1 by decide,
        varint_length_step _ (by norm_num),
        show (2 ^ 22 - 1 : Nat) >>> 7 = 2 ^ 15 - 1 by decide,
        varint_length_step _ (by norm_num),
        show (2 ^ 15 - 1 : Nat) >>> 7 = 2 ^ 8 - 1 by decide,
        varint_length_step _ (by norm_num),
        show (2 ^ 8 - 1 : Nat) >>> 7 = 1 by decide,
        varint_length_base 1 (by norm_num)]

/-- C5, witness at `x = 300` and `x = 2 ^ 64 - 1`. -/
theorem varint_length_spec_witness :
    (300 : Nat) >>> (7 * (varint_length 300 - 1)) < 128 ∧
    128 ≤ (300 : Nat) >>> (7 * 0) ∧
    varint_length 300 ≤ 10 :=
  ⟨varint_length_spec.1 300,
   varint_length_spec.2.1 300 0 (by
     rw [varint_length_step 300 (by norm_num), show (300 : Nat) >>> 7 = 2 by decide,
       varint_length_base 2 (by norm_num)]
     norm_num),
   varint_length_spec.2.2.2.2.2.2 300 (by norm_num)⟩

/-- C6, counterexample.  Ten continuation bytes followed by a terminal byte:
the decoder consumes 11 bytes — more than the claimed maximum of 10 — and
returns `OWERFLOW_ERROR`. -/
theorem overflow_consumes_eleven :
    read_le_varint_typed 64 (List.replicate 10 (Except.ok 0x80) ++ [Except.ok 0x00]) =
      (Except.error OWERFLOW_ERROR, 11) := by decide

/-- C6, amended.  The decoder consumes exactly the bytes it reads, never more
than the source holds; on success it consumes between 1 and 10 bytes, and an
`OWERFLOW_ERROR` consumes at least one byte but may exceed 10. -/
theorem consumption_amended (W : Nat) (bytes : List Nat) :
    (read_le_varint_typed W (bytes.map Except.ok)).2 ≤ bytes.length ∧
    (∀ v : Nat, (read_le_varint_typed W (bytes.map Except.ok)).1 = Except.ok v →
      1 ≤ (read_le_varint_typed W (bytes.map Except.ok)).2 ∧
      (read_le_varint_typed W (bytes.map Except.ok)).2 ≤ 10) ∧
    ((read_le_varint_typed W (bytes.map Except.ok)).1 = Except.error OWERFLOW_ERROR →
      1 ≤ (read_le_varint_typed W (bytes.map Except.ok)).2) := by
  rcases hsrc : read_le_varint_loop (bytes.map Except.ok) 0 0 0 with ⟨r1, n⟩
  have hfst : (read_le_varint_loop (bytes.map Except.ok) 0 0 0).1 = r1 := by rw [hsrc]
  have hsnd : (read_le_varint_typed W (bytes.map Except.ok)).2 = n := by
    show (read_le_varint_loop (bytes.map Except.ok) 0 0 0).2 = n
    rw [hsrc]
  have h1 : (read_le_varint_typed W (bytes.map Except.ok)).1 = narrow_u64 W r1 := by
    show narrow_u64 W (read_le_varint_loop (bytes.map Except.ok) 0 0 0).1 = narrow_u64 W r1
    rw [hfst]
  refine ⟨?_, ?_, ?_⟩
  · rw [hsnd]
    have := read_le_varint_loop_consumed_le (bytes.map Except.ok) 0 0 0
    rw [hsrc] at this
    simpa using this
  · intro v hv
    rw [h1] at hv
    rw [hsnd]
    cases r1 with
    | ok y =>
      have := read_le_varint_loop_ok_consumed (bytes.map Except.ok) 0 0 0 y n hsrc
      omega
    | error e => simp [narrow_u64] at hv
  · intro he
    rw [h1] at he
    rw [hsnd]
    cases r1 with
    | ok y =>
      have := read_le_varint_loop_ok_consumed (bytes.map Except.ok) 0 0 0 y n hsrc
      omega
    | error e =>
      simp only [narrow_u64, Except.error.injEq] at he
      subst he
      exact read_le_varint_loop_overflow_consumed bytes 0 0 0 n hsrc

/-- C6, amended, witness: a successful two-byte decode consumes 2 bytes. -/
theorem consumption_amended_witness :
    1 ≤ (read_le_varint_typed 32 ([172, 2].map Except.ok)).2 ∧
    (read_le_varint_typed 32 ([172, 2].map Except.ok)).2 ≤ 10 :=
  (consumption_amended 32 [172, 2]).2.1 300 (by decide)

/-- C7.  I/O failures pass through unchanged: a failing `read_byte` makes
`read_le_varint` return exactly that failure (not `OWERFLOW_ERROR`), and a
failing `write_u8` makes `write_le_varint` stop at once, return exactly that
failure, and keep the bytes already written. -/
theorem io_error_propagation :
    (∀ (W : Nat) (cs : List Nat) (e : IoError) (rest : Source),
      (∀ c ∈ cs, 128 ≤ c) →
      read_le_varint_typed W (cs.map Except.ok ++ Except.error e :: rest) =
        (Except.error e, cs.length)) ∧
    (∀ (x k : Nat) (e : IoError), k < varint_length x →
      write_le_varint (List.replicate k none ++ [some e]) x =
        (Except.error e, (encBytes x).take k)) := by
  constructor
  · intro W cs e rest hcs
    unfold read_le_varint_typed read_le_varint
    rw [read_le_varint_loop_err cs e rest 0 0 0 hcs]
    rfl
  · intro x k e hk
    exact write_le_varint_fail x k e hk

/-- C7, witness: a mid-stream read failure and a second-write failure. -/
theorem io_error_propagation_witness :
    read_le_varint_typed 8
        ([128].map Except.ok ++
          Except.error ⟨IoErrorKind.OtherIoError, "boom", none⟩ :: []) =
      (Except.error ⟨IoErrorKind.OtherIoError, "boom", none⟩, 1) ∧
    write_le_varint (List.replicate 1 none ++ [some ⟨IoErrorKind.OtherIoError, "boom", none⟩]) 300 =
      (Except.error ⟨IoErrorKind.OtherIoError, "boom", none⟩, (encBytes 300).take 1) :=
  ⟨io_error_propagation.1 8 [128] ⟨IoErrorKind.OtherIoError, "boom", none⟩ [] (by decide),
   io_error_propagation.2 300 1 ⟨IoErrorKind.OtherIoError, "boom", none⟩ (by
     rw [varint_length_step 300 (by norm_num), show (300 : Nat) >>> 7 = 2 by decide,
       varint_length_base 2 (by norm_num)]
     norm_num)⟩

/-- C8.  Widening never fails: for every value of an unsigned target type of
width `W ≤ 64`, `to_u64` succeeds (so the `unwrap` in
`VarintWriter::write_le_varint` cannot panic) and the typed writer equals
the untyped one. -/
theorem to_u64_never_fails (W x : Nat) (plan : SinkPlan) (hW : W ≤ 64) (hx : x < 2 ^ W) :
    to_u64 x = some x ∧ write_le_varint_typed plan x = write_le_varint plan x := by
  have hx64 : x < 2 ^ 64 := lt_of_lt_of_le hx (Nat.pow_le_pow_right (by norm_num) hW)
  constructor
  · unfold to_u64
    rw [if_pos hx64]
  · unfold write_le_varint_typed to_u64
    rw [if_pos hx64]
    rfl

/-- C8, witness at `W = 32`, `x = 300`. -/
theorem to_u64_never_fails_witness :
    to_u64 300 = some 300 ∧ write_le_varint_typed [] 300 = write_le_varint [] 300 :=
  to_u64_never_fails 32 300 [] (by norm_num) (by norm_num)

/-- C9.  The decode loop terminates on every finite source: with any
iteration budget larger than the source, it exits normally, with the same
result as the direct recursion — the `unreachable!()` after the loop is
never executed. -/
theorem decode_loop_terminates (fuel : Nat) (src : Source) (x shift i : Nat)
    (h : src.length < fuel) :
    read_le_varint_count fuel src x shift i =
      LoopResult.done (read_le_varint_loop src x shift i).1 (read_le_varint_loop src x shift i).2 := by
  induction fuel generalizing src x shift i with
  | zero => exact absurd h (Nat.not_lt_zero _)
  | succ fuel ih =>
    cases src with
    | nil => simp [read_le_varint_count, read_le_varint_loop]
    | cons a rest =>
      cases a with
      | error e => simp [read_le_varint_count, read_le_varint_loop]
      | ok b =>
        simp only [read_le_varint_count, read_le_varint_loop]
        by_cases hb : b < 128
        · rw [if_pos hb, if_pos hb]
          by_cases hover : (i = 9 ∧ 1 < b) ∨ 10 ≤ i
          · rw [if_pos hover, if_pos hover]
          · rw [if_neg hover, if_neg hover]
        · rw [if_neg hb, if_neg hb]
          have hlen : rest.length < fuel := by
            simp only [List.length_cons] at h
            omega
          rw [ih rest _ _ _ hlen]

/-- C9, witness: budget 2 on a one-byte source. -/
theorem decode_loop_terminates_witness :
    read_le_varint_count 2 [Except.ok 5] 0 0 0 =
      LoopResult.done (read_le_varint_loop [Except.ok 5] 0 0 0).1
        (read_le_varint_loop [Except.ok 5] 0 0 0).2 :=
  decode_loop_terminates 2 [Except.ok 5] 0 0 0 (by decide)

/-- C10.  Zero-padded (non-minimal) encodings are accepted for every target
width: whenever the terminal byte index is at most 9 (with payload at most 1
at index 9) and the accumulated value fits in `W` bits, the decoder returns
`Ok` of that value. -/
theorem padded_encodings_accepted (W : Nat) (cs : List Nat) (b : Nat)
    (hcs : ∀ c ∈ cs, 128 ≤ c) (hb : b < 128) (hlen : cs.length ≤ 9)
    (hlast : cs.length = 9 → b ≤ 1) (hfit : varintVal cs b < 2 ^ W) :
    read_le_varint_typed W ((cs ++ [b]).map Except.ok) =
      (Except.ok (varintVal cs b), cs.length + 1) := by
  unfold read_le_varint_typed read_le_varint
  rw [List.map_append]
  simp only [List.map_cons, List.map_nil]
  have hloop := read_le_varint_loop_ok cs b [] 0 0 hcs hb (by omega)
    (fun h => hlast (by omega)) (by norm_num)
  simp only [Nat.mul_zero, pow_zero, Nat.mul_one, Nat.zero_add] at hloop
  rw [hloop]
  simp [narrow_u64, from_u64, hfit]

/-- C10, witness: `read_le_varint::<u8>` on `[0x80, 0x80, 0x00]` is `Ok 0`
after 3 bytes, although the terminal byte sits at index 2. -/
theorem padded_encodings_accepted_witness :
    read_le_varint_typed 8 (([128, 128] ++ [0]).map Except.ok) =
      (Except.ok (varintVal [128, 128] 0), 3) :=
  padded_encodings_accepted 8 [128, 128] 0 (by decide) (by decide) (by decide)
    (by decide) (by decide)

end Varint
